import Mathlib

/-!
Shallow embedding of the game-rules engine of the falling-block puzzle
repository (src/lib/utils.ts and src/hooks/useGameLogic.ts), together with
proofs of the specification claims about it.

JS arrays of cells become Lean lists; `null` board cells become `none`;
machine numbers holding small integers become `ℤ`/`ℕ`; the float heuristic
weights (10, 0.5, 0.3, -5) become the exact rationals 10, 1/2, 3/10, -5
(all score differences arising from the integer metrics are multiples of
1/10, far above float rounding error, so exact comparison agrees with the
source's float comparison except on exact ties, which the code may break
either way); `Math.random()` becomes an injected oracle parameter.
-/

namespace OpenTetris

/-- The seven piece kinds (`TetrominoType` in src/types). -/
inductive TetrominoType where
  | I | O | T | S | Z | J | L
deriving DecidableEq, Repr

/-- A board cell: `null` (empty) or the kind of the locked piece. -/
abbrev Cell := Option TetrominoType

abbrev Row := List Cell

abbrev Board := List Row

/-- Board-relative anchor position of a piece (may be negative). -/
structure Pos where
  x : ℤ
  y : ℤ
deriving DecidableEq, Repr

/-- A tetromino instance: kind, its stored base shape matrix, anchor
position and rotation count (shape is rotated on demand). -/
structure Tetromino where
  type : TetrominoType
  shape : List (List ℕ)
  position : Pos
  rotation : ℕ
deriving DecidableEq, Repr

/-- Modelled from the spec: `BOARD_WIDTH` lives in src/lib/constants.ts,
which is not part of the provided sources; the spec's scenario section
fixes the grid at 20 rows × 10 columns. -/
def BOARD_WIDTH : ℕ := 10

/-- Modelled from the spec: `BOARD_HEIGHT` from src/lib/constants.ts,
fixed at 20 rows by the spec's scenario section. -/
def BOARD_HEIGHT : ℕ := 20

/-- Modelled from the spec: `TETROMINO_SHAPES` lives in
src/lib/constants.ts, absent from the provided sources. The spec fixes an
immutable N×N binary base shape per kind with N ∈ {2,3,4} (O is 2×2, I is
4×4, the rest 3×3); these are the standard SRS base shapes. -/
def TETROMINO_SHAPES : TetrominoType → List (List ℕ)
  | .I => [[0, 0, 0, 0], [1, 1, 1, 1], [0, 0, 0, 0], [0, 0, 0, 0]]
  | .O => [[1, 1], [1, 1]]
  | .T => [[0, 1, 0], [1, 1, 1], [0, 0, 0]]
  | .S => [[0, 1, 1], [1, 1, 0], [0, 0, 0]]
  | .Z => [[1, 1, 0], [0, 1, 1], [0, 0, 0]]
  | .J => [[1, 0, 0], [1, 1, 1], [0, 0, 0]]
  | .L => [[0, 0, 1], [1, 1, 1], [0, 0, 0]]

/-- `createEmptyBoard` (utils.ts): H×W grid of `null`. -/
def createEmptyBoard : Board :=
  List.replicate BOARD_HEIGHT (List.replicate BOARD_WIDTH (none : Cell))

/-- `rotateMatrix` (utils.ts): `rotated[j][N-1-i] = matrix[i][j]`, i.e.
row `j`, column `k` of the result is `matrix[N-1-k][j]`. -/
def rotateMatrix (matrix : List (List ℕ)) : List (List ℕ) :=
  let N := matrix.length
  (List.range N).map fun j =>
    (List.range N).map fun k => (matrix.getD (N - 1 - k) []).getD j 0

/-- The `for (i < piece.rotation)` loop of `getRotatedShape`. -/
def rotateIter : ℕ → List (List ℕ) → List (List ℕ)
  | 0, m => m
  | n + 1, m => rotateIter n (rotateMatrix m)

/-- `getRotatedShape` (utils.ts): the base shape rotated clockwise
`rotation` times. -/
def getRotatedShape (piece : Tetromino) : List (List ℕ) :=
  rotateIter piece.rotation piece.shape

/-- `generateNewPiece` (utils.ts), on the path where the caller supplies
the type (every call site in the sources does): rotation 0, x centered,
y = 0. -/
def generateNewPiece (type : TetrominoType) : Tetromino :=
  let shape := TETROMINO_SHAPES type
  { type := type
    shape := shape
    position := ⟨((BOARD_WIDTH : ℤ) - (shape.headD []).length) / 2, 0⟩
    rotation := 0 }

/-- Reading `board[y][x]` on the H×W grid: out-of-grid reads yield `none`
(a fresh JS index read yields `undefined`, which is falsy like `null`). -/
def cellAt (board : Board) (y x : ℤ) : Cell :=
  if 0 ≤ y ∧ 0 ≤ x then (board.getD y.toNat []).getD x.toNat none else none

/-- `isValidMove` (utils.ts): every occupied cell of the rotated shape
must be inside the side walls and above-or-inside the floor, and must not
overlap an occupied board cell when its row is visible (`boardY ≥ 0`). -/
def isValidMove (piece : Tetromino) (board : Board) : Bool :=
  let shape := getRotatedShape piece
  (List.range shape.length).all fun y =>
    (List.range (shape.getD y []).length).all fun x =>
      if (shape.getD y []).getD x 0 ≠ 0 then
        let boardX := piece.position.x + x
        let boardY := piece.position.y + y
        if boardX < 0 ∨ (BOARD_WIDTH : ℤ) ≤ boardX ∨ (BOARD_HEIGHT : ℤ) ≤ boardY ∨
            (0 ≤ boardY ∧ (cellAt board boardY boardX).isSome) then false else true
      else true

/-- Writing `newBoard[boardY][boardX] = type`: a write outside the H×W
grid leaves every grid cell (and the grid dimensions) unchanged, which is
how such a JS write is observed by all grid reads in the sources. -/
def setCell (board : Board) (y x : ℤ) (type : TetrominoType) : Board :=
  if 0 ≤ y ∧ 0 ≤ x then
    board.set y.toNat ((board.getD y.toNat []).set x.toNat (some type))
  else board

/-- `addPieceToBoard` (utils.ts): writes the occupied cells of the rotated
shape, clipped to `0 ≤ boardY < BOARD_HEIGHT`, into a copy of the board
(`boardY = piece.position.y + y`, `boardX = piece.position.x + x`,
inlined). -/
def addPieceToBoard (board : Board) (piece : Tetromino) : Board :=
  let shape := getRotatedShape piece
  (List.range shape.length).foldl (fun nb y =>
    (List.range (shape.getD y []).length).foldl (fun nb2 x =>
      if (shape.getD y []).getD x 0 ≠ 0 then
        if 0 ≤ piece.position.y + (y : ℤ) ∧
            piece.position.y + (y : ℤ) < (BOARD_HEIGHT : ℤ) then
          setCell nb2 (piece.position.y + (y : ℤ))
            (piece.position.x + (x : ℤ)) piece.type
        else nb2
      else nb2) nb) board

/-- `row.every(cell => cell !== null)` in `clearLines`. -/
def isRowFull (row : Row) : Bool :=
  row.all fun cell => cell.isSome

/-- The fresh `Array(BOARD_WIDTH).fill(null)` row. -/
def emptyRow : Row := List.replicate BOARD_WIDTH (none : Cell)

/-- `clearLines` (utils.ts): the `reduce` over rows — a full row bumps the
counter and unshifts a fresh empty row at the front of the accumulator, any
other row is pushed at the back. -/
def clearLines (board : Board) : Board × ℕ :=
  board.foldl (fun acc row =>
    if isRowFull row then (emptyRow :: acc.1, acc.2 + 1)
    else (acc.1 ++ [row], acc.2)) ([], 0)

/-- The piece shifted one row down (the candidate tested by every descent
loop guard in the sources). -/
def down (piece : Tetromino) : Tetromino :=
  { piece with position := ⟨piece.position.x, piece.position.y + 1⟩ }

/-- The piece with its y coordinate replaced. -/
def setY (piece : Tetromino) (y : ℤ) : Tetromino :=
  { piece with position := ⟨piece.position.x, y⟩ }

/-- The shared `while (isValidMove(oneRowDown)) y++` loop of
`getGhostPiecePosition`, `hardDrop`, `simulatePlacement` and
`findBestPlacement`, with explicit fuel. Whenever the rotated shape has an
occupied cell the guard fails before `BOARD_HEIGHT + 1` steps, so any fuel
of at least `BOARD_HEIGHT + 1 - y` makes this equal to the unbounded
source loop (`descend_stable`). -/
def descend (fuel : ℕ) (piece : Tetromino) (board : Board) : Tetromino :=
  match fuel with
  | 0 => piece
  | fuel + 1 =>
    if isValidMove (down piece) board then descend fuel (down piece) board
    else piece

/-- Fuel sufficient for `descend` from `piece`'s current row, for any
piece whose rotated shape has an occupied cell. -/
def descendFuel (piece : Tetromino) : ℕ :=
  ((BOARD_HEIGHT : ℤ) + 1 - piece.position.y).toNat

/-- `getGhostPiecePosition` (utils.ts): copy the piece and drop it one row
at a time while the shifted copy remains a valid move. -/
def getGhostPiecePosition (piece : Tetromino) (board : Board) : Tetromino :=
  descend (descendFuel piece) piece board

/-- A wall-kick offset `{x, y}`. -/
structure Kick where
  x : ℤ
  y : ℤ
deriving DecidableEq, Repr

/-- `getWallKicks` (utils.ts): SRS kick tables keyed by the current
rotation (the key is `"{cur}{(cur+1)%4}"`; for any current rotation
outside 0–3 the lookup misses and falls back to the `"01"` table). -/
def getWallKicks (piece : Tetromino) (currentRotation : ℕ) : List Kick :=
  if piece.type = .I then
    match currentRotation with
    | 0 => [⟨0, 0⟩, ⟨-2, 0⟩, ⟨1, 0⟩, ⟨-2, 1⟩, ⟨1, -2⟩]
    | 1 => [⟨0, 0⟩, ⟨-1, 0⟩, ⟨2, 0⟩, ⟨-1, -2⟩, ⟨2, 1⟩]
    | 2 => [⟨0, 0⟩, ⟨2, 0⟩, ⟨-1, 0⟩, ⟨2, -1⟩, ⟨-1, 2⟩]
    | 3 => [⟨0, 0⟩, ⟨1, 0⟩, ⟨-2, 0⟩, ⟨1, 2⟩, ⟨-2, -1⟩]
    | _ => [⟨0, 0⟩, ⟨-2, 0⟩, ⟨1, 0⟩, ⟨-2, 1⟩, ⟨1, -2⟩]
  else if piece.type = .O then [⟨0, 0⟩]
  else
    match currentRotation with
    | 0 => [⟨0, 0⟩, ⟨-1, 0⟩, ⟨-1, -1⟩, ⟨0, 2⟩, ⟨-1, 2⟩]
    | 1 => [⟨0, 0⟩, ⟨1, 0⟩, ⟨1, 1⟩, ⟨0, -2⟩, ⟨1, -2⟩]
    | 2 => [⟨0, 0⟩, ⟨1, 0⟩, ⟨1, -1⟩, ⟨0, 2⟩, ⟨1, 2⟩]
    | 3 => [⟨0, 0⟩, ⟨-1, 0⟩, ⟨-1, 1⟩, ⟨0, -2⟩, ⟨-1, -2⟩]
    | _ => [⟨0, 0⟩, ⟨-1, 0⟩, ⟨-1, -1⟩, ⟨0, 2⟩, ⟨-1, 2⟩]

/-- The `kickedPiece` built inside the rotation loop: the (already
rotated) piece translated by a kick offset. -/
def applyKick (piece : Tetromino) (kick : Kick) : Tetromino :=
  { piece with
    position := ⟨piece.position.x + kick.x, piece.position.y + kick.y⟩ }

/-- The `for (const kick of kicks)` loop of `rotatePiece`
(useGameLogic.ts): commit the first kicked rotated piece that is a valid
move; if none is, fall back to the original piece. -/
def tryKicks (rotated : Tetromino) (board : Board) (orig : Tetromino) :
    List Kick → Tetromino
  | [] => orig
  | kick :: rest =>
    if isValidMove (applyKick rotated kick) board then applyKick rotated kick
    else tryKicks rotated board orig rest

/-- `rotatePiece` (useGameLogic.ts), restricted to its effect on the
active piece: build the piece at rotation `(current+1) % 4`, then try the
wall kicks for the current rotation in table order. -/
def rotatePiece (piece : Tetromino) (board : Board) : Tetromino :=
  let rotatedPiece := { piece with rotation := (piece.rotation + 1) % 4 }
  tryKicks rotatedPiece board piece (getWallKicks piece piece.rotation)

/-- `TETROMINO_TYPES` (utils.ts). -/
def TETROMINO_TYPES : List TetrominoType := [.I, .O, .T, .S, .Z, .J, .L]

/-- The destructuring swap `[bag[i], bag[j]] = [bag[j], bag[i]]`. -/
def bagSwap (bag : List TetrominoType) (i j : ℕ) : List TetrominoType :=
  (bag.set i (bag.getD j .I)).set j (bag.getD i .I)

/-- `generateBag` (utils.ts): Fisher–Yates over a copy of
`TETROMINO_TYPES`; `rand i` stands for the draw
`Math.floor(Math.random() * (i + 1))` at loop index `i` (so `rand i ≤ i`
for a genuine `Math.random`). -/
def generateBag (rand : ℕ → ℕ) : List TetrominoType :=
  [6, 5, 4, 3, 2, 1].foldl (fun bag i => bagSwap bag i (rand i)) TETROMINO_TYPES

/-- The metrics record returned by `calculateBoardMetrics`. -/
structure Metrics where
  holes : ℕ
  height : ℕ
  bumpiness : ℕ
deriving DecidableEq, Repr

/-- `countHoles` (utils.ts): per column, count empty cells strictly below
the first occupied cell. -/
def countHoles (board : Board) : ℕ :=
  (List.range BOARD_WIDTH).foldl (fun holes x =>
    ((List.range BOARD_HEIGHT).foldl (fun (st : Bool × ℕ) y =>
      if ((board.getD y []).getD x none).isSome then (true, st.2)
      else if st.1 then (true, st.2 + 1) else st) (false, holes)).2) 0

/-- The `for (y) { if (row occupied) { height = H - y; break } }` scan of
`calculateBoardMetrics`. -/
def boardHeight (board : Board) : ℕ :=
  match (List.range BOARD_HEIGHT).find? (fun y =>
      (board.getD y []).any fun cell => cell.isSome) with
  | some y => BOARD_HEIGHT - y
  | none => 0

/-- The per-column height scan of `calculateBoardMetrics`. -/
def columnHeight (board : Board) (x : ℕ) : ℕ :=
  match (List.range BOARD_HEIGHT).find? (fun y =>
      ((board.getD y []).getD x none).isSome) with
  | some y => BOARD_HEIGHT - y
  | none => 0

/-- `calculateBoardMetrics` (utils.ts). -/
def calculateBoardMetrics (board : Board) : Metrics :=
  { holes := countHoles board
    height := boardHeight board
    bumpiness := (List.range (BOARD_WIDTH - 1)).foldl (fun s i =>
      s + ((columnHeight board i : ℤ) - columnHeight board (i + 1)).natAbs) 0 }

/-- `HOLE_WEIGHT` of `scoreBoardState` (second utils.ts variant). -/
def HOLE_WEIGHT : ℚ := 10

/-- `HEIGHT_WEIGHT = 0.5`, exactly. -/
def HEIGHT_WEIGHT : ℚ := 1 / 2

/-- `BUMPINESS_WEIGHT = 0.3`, exactly. -/
def BUMPINESS_WEIGHT : ℚ := 3 / 10

/-- `LINES_WEIGHT = -5`. -/
def LINES_WEIGHT : ℚ := -5

/-- `scoreBoardState` (second utils.ts variant): the composite board
score; lower is better. The `currentBoard` argument is taken and ignored,
as in the source. -/
def scoreBoardState (currentBoard resultBoard : Board) (linesCleared : ℕ) : ℚ :=
  let metrics := calculateBoardMetrics resultBoard
  metrics.holes * HOLE_WEIGHT + metrics.height * HEIGHT_WEIGHT +
    metrics.bumpiness * BUMPINESS_WEIGHT + linesCleared * LINES_WEIGHT

/-- The fuel actually used for the straight-drop loops of the placement
search: pieces there start at `y = 0`, and every real shape has an
occupied cell, so `BOARD_HEIGHT + 1` steps always exhaust the guard. -/
def DROP_FUEL : ℕ := BOARD_HEIGHT + 1

/-- The piece built at the top of each placement trial: `generateNewPiece`
followed by the overwrites `rotation := rot`, `position.x := x`,
`position.y := 0`. -/
def trialPiece (pieceType : TetrominoType) (x : ℤ) (rotation : ℕ) : Tetromino :=
  { generateNewPiece pieceType with position := ⟨x, 0⟩, rotation := rotation }

/-- `simulatePlacement` (utils.ts): drop the trial piece, reject it if its
resting place is not a valid move, otherwise merge it and clear lines. -/
def simulatePlacement (pieceType : TetrominoType) (board : Board) (x : ℤ)
    (rotation : ℕ) : Option Board :=
  let piece := descend DROP_FUEL (trialPiece pieceType x rotation) board
  if isValidMove piece board then
    some (clearLines (addPieceToBoard board piece)).1
  else none

/-- The best-placement record of the second utils.ts variant of
`findBestPlacement`. -/
structure Placement where
  score : ℚ
  x : ℤ
  rotation : ℕ
  linesCleared : ℕ
deriving DecidableEq, Repr

/-- One rotation×position trial of the second utils.ts variant of
`findBestPlacement`: drop the trial piece, and if its resting place is
valid, merge, clear lines and score the result. -/
def placementTrial (pieceType : TetrominoType) (board : Board)
    (rotation : ℕ) (x : ℤ) : Option Placement :=
  let piece := descend DROP_FUEL (trialPiece pieceType x rotation) board
  if isValidMove piece board then
    let boardWithPiece := addPieceToBoard board piece
    let cleared := clearLines boardWithPiece
    some ⟨scoreBoardState board cleared.1 cleared.2, x, rotation, cleared.2⟩
  else none

/-- The horizontal anchors tried by the placement search:
`x = -3` to `BOARD_WIDTH + 2`. -/
def xRange : List ℤ :=
  (List.range (BOARD_WIDTH + 6)).map fun (n : ℕ) => (n : ℤ) - 3

/-- The `!bestPlacement || score < bestPlacement.score` update of the
second utils.ts variant of `findBestPlacement`. -/
def placementStep (pieceType : TetrominoType) (board : Board)
    (best : Option Placement) (rotation : ℕ) (x : ℤ) : Option Placement :=
  match placementTrial pieceType board rotation x with
  | none => best
  | some pl =>
    match best with
    | none => some pl
    | some bp => if pl.score < bp.score then some pl else some bp

/-- `findBestPlacement` (second utils.ts variant): exhaustive search over
rotations 0–3 and the padded x range, keeping the lowest composite
score. -/
def findBestPlacement (pieceType : TetrominoType) (board : Board) :
    Option Placement :=
  (List.range 4).foldl (fun best rotation =>
    xRange.foldl (fun best x => placementStep pieceType board best rotation x)
      best) none

/-- The best-placement record of the first utils.ts variant of
`findBestPlacement` (the one used by `selectOptimalPiece`). -/
structure HolesPlacement where
  holes : ℕ
  x : ℤ
  rotation : ℕ
deriving DecidableEq, Repr

/-- The update of the first utils.ts variant of `findBestPlacement`:
strictly fewer holes wins, and on equal holes `Math.random() < 0.5`
decides — modelled by the injected tiebreak oracle `tb`. -/
def holesStep (tb : ℕ → ℤ → Bool) (pieceType : TetrominoType) (board : Board)
    (best : Option HolesPlacement) (rotation : ℕ) (x : ℤ) :
    Option HolesPlacement :=
  match simulatePlacement pieceType board x rotation with
  | none => best
  | some resultBoard =>
    let metrics := calculateBoardMetrics resultBoard
    match best with
    | none => some ⟨metrics.holes, x, rotation⟩
    | some bp =>
      if metrics.holes < bp.holes ∨ (metrics.holes = bp.holes ∧ tb rotation x)
      then some ⟨metrics.holes, x, rotation⟩ else some bp

/-- `findBestPlacement` (first utils.ts variant): exhaustive search over
rotations 0–3 and the padded x range, keeping the fewest holes. -/
def findBestPlacementHoles (tb : ℕ → ℤ → Bool) (pieceType : TetrominoType)
    (board : Board) : Option HolesPlacement :=
  (List.range 4).foldl (fun best rotation =>
    xRange.foldl (fun best x => holesStep tb pieceType board best rotation x)
      best) none

/-- `selectOptimalPiece` (first utils.ts variant): fold over the seven
kinds keeping the kind whose best placement has strictly fewest holes;
`bestHoles` starts at `Infinity` (modelled by `none`) and `bestPiece` at
the hardcoded default `"I"`. -/
def selectOptimalPiece (tb : ℕ → ℤ → Bool) (board : Board) : TetrominoType :=
  (TETROMINO_TYPES.foldl (fun (st : TetrominoType × Option ℕ) pieceType =>
    match findBestPlacementHoles tb pieceType board with
    | none => st
    | some placement =>
      match st.2 with
      | none => (pieceType, some placement.holes)
      | some bestHoles =>
        if placement.holes < bestHoles then (pieceType, some placement.holes)
        else st) (.I, none)).1

/-! ### Matrix rotation lemmas -/

/-- Entry `m[i][j]` of a shape matrix, with JS-style out-of-range reads
giving 0. -/
def entry (m : List (List ℕ)) (i j : ℕ) : ℕ :=
  (m.getD i []).getD j 0

/-- A shape matrix is square when every row is as long as the matrix. -/
def IsSquare (m : List (List ℕ)) : Prop :=
  ∀ row ∈ m, row.length = m.length

theorem length_rotateMatrix (m : List (List ℕ)) :
    (rotateMatrix m).length = m.length := by
  simp [rotateMatrix]

theorem getD_rotateMatrix (m : List (List ℕ)) (j : ℕ) (hj : j < m.length) :
    (rotateMatrix m).getD j [] =
      (List.range m.length).map fun k =>
        (m.getD (m.length - 1 - k) []).getD j 0 := by
  have hj' : j < (rotateMatrix m).length := by
    rwa [length_rotateMatrix]
  rw [List.getD_eq_getElem _ _ hj']
  simp [rotateMatrix]

theorem row_length_rotateMatrix (m : List (List ℕ)) (j : ℕ)
    (hj : j < m.length) :
    ((rotateMatrix m).getD j []).length = m.length := by
  rw [getD_rotateMatrix m j hj]
  simp

theorem entry_rotateMatrix (m : List (List ℕ)) (j k : ℕ)
    (hj : j < m.length) (hk : k < m.length) :
    entry (rotateMatrix m) j k = entry m (m.length - 1 - k) j := by
  unfold entry
  rw [getD_rotateMatrix m j hj]
  have hk' : k < (List.range m.length).length := by simpa using hk
  rw [List.getD_eq_getElem _ _ (by simpa using hk)]
  simp

theorem isSquare_rotateMatrix (m : List (List ℕ)) :
    IsSquare (rotateMatrix m) := by
  intro row hrow
  rw [length_rotateMatrix]
  simp only [rotateMatrix, List.mem_map, List.mem_range] at hrow
  obtain ⟨j, _, rfl⟩ := hrow
  simp

/-- C5: applying `rotateMatrix` four times to any square matrix returns
the original matrix, and one application realizes the clockwise transform
`rotated[j][N-1-i] = original[i][j]`. -/
theorem rotateMatrix_four_cycle (m : List (List ℕ))
    (hsq : ∀ row ∈ m, row.length = m.length) :
    rotateMatrix (rotateMatrix (rotateMatrix (rotateMatrix m))) = m ∧
      ∀ i j, i < m.length → j < m.length →
        entry (rotateMatrix m) j (m.length - 1 - i) = entry m i j := by
  set N := m.length with hN
  have h1l : (rotateMatrix m).length = N := length_rotateMatrix m
  have h2l : (rotateMatrix (rotateMatrix m)).length = N := by
    rw [length_rotateMatrix, h1l]
  have h3l : (rotateMatrix (rotateMatrix (rotateMatrix m))).length = N := by
    rw [length_rotateMatrix, h2l]
  have h4l :
      (rotateMatrix (rotateMatrix (rotateMatrix (rotateMatrix m)))).length
        = N := by
    rw [length_rotateMatrix, h3l]
  have hentry : ∀ j k, j < N → k < N →
      entry (rotateMatrix (rotateMatrix (rotateMatrix (rotateMatrix m)))) j k
        = entry m j k := by
    intro j k hjN hkN
    have e4 := entry_rotateMatrix (rotateMatrix (rotateMatrix (rotateMatrix m)))
      j k (by omega) (by omega)
    have e3 := entry_rotateMatrix (rotateMatrix (rotateMatrix m))
      (N - 1 - k) j (by omega) (by omega)
    have e2 := entry_rotateMatrix (rotateMatrix m)
      (N - 1 - j) (N - 1 - k) (by omega) (by omega)
    have e1 := entry_rotateMatrix m k (N - 1 - j) (by omega) (by omega)
    rw [h3l] at e4
    rw [h2l] at e3
    rw [h1l] at e2
    rw [← hN] at e1
    rw [e4, e3, e2]
    have hk2 : N - 1 - (N - 1 - k) = k := by omega
    have hj2 : N - 1 - (N - 1 - j) = j := by omega
    rw [hk2, e1, hj2]
  constructor
  · apply List.ext_getElem (by rw [h4l])
    intro j hj4 hjm
    have hjN : j < N := hjm
    have hrow4 :
        (rotateMatrix (rotateMatrix (rotateMatrix (rotateMatrix m))))[j].length
          = N := by
      have := row_length_rotateMatrix
        (rotateMatrix (rotateMatrix (rotateMatrix m))) j (by omega)
      rw [h3l] at this
      rwa [List.getD_eq_getElem _ _ hj4] at this
    have hrowm : m[j].length = N := hsq _ (List.getElem_mem hjm)
    apply List.ext_getElem (by rw [hrow4, hrowm])
    intro k hk4 hkm
    have hkN : k < N := by rwa [hrow4] at hk4
    have := hentry j k hjN hkN
    unfold entry at this
    rwa [List.getD_eq_getElem _ _ hj4, List.getD_eq_getElem _ _ hjm,
      List.getD_eq_getElem _ _ hk4, List.getD_eq_getElem _ _ hkm] at this
  · intro i j hi hj
    have := entry_rotateMatrix m j (N - 1 - i) (by omega) (by omega)
    rw [← hN] at this
    rw [this]
    congr 1
    omega

/-- Witness for C5 at the concrete 2×2 matrix `[[1,2],[3,4]]`. -/
theorem rotateMatrix_four_cycle_witness :
    (∀ row ∈ [[1, 2], [3, 4]], row.length = 2) ∧
      rotateMatrix (rotateMatrix (rotateMatrix (rotateMatrix
        [[1, 2], [3, 4]]))) = [[1, 2], [3, 4]] := by
  refine ⟨by decide, ?_⟩
  exact (rotateMatrix_four_cycle [[1, 2], [3, 4]] (by decide)).1

/-! ### Validity characterization -/

theorem isValidMove_char (p : Tetromino) (b : Board) :
    isValidMove p b = true ↔
      ∀ y x : ℕ, y < (getRotatedShape p).length →
        x < ((getRotatedShape p).getD y []).length →
        ((getRotatedShape p).getD y []).getD x 0 ≠ 0 →
        0 ≤ p.position.x + x ∧ p.position.x + x < (BOARD_WIDTH : ℤ) ∧
          p.position.y + y < (BOARD_HEIGHT : ℤ) ∧
          (0 ≤ p.position.y + y →
            cellAt b (p.position.y + y) (p.position.x + x) = none) := by
  unfold isValidMove
  simp only [List.all_eq_true, List.mem_range]
  constructor
  · intro h y x hy hx hocc
    have hcell := h y hy x hx
    rw [if_pos hocc] at hcell
    have hA : ¬(p.position.x + x < 0 ∨ (BOARD_WIDTH : ℤ) ≤ p.position.x + x ∨
        (BOARD_HEIGHT : ℤ) ≤ p.position.y + y ∨
        (0 ≤ p.position.y + y ∧
          (cellAt b (p.position.y + y) (p.position.x + x)).isSome)) := by
      intro hA
      rw [if_pos hA] at hcell
      exact absurd hcell (by simp)
    push_neg at hA
    obtain ⟨h1, h2, h3, h4⟩ := hA
    refine ⟨by omega, by omega, by omega, fun hvis => ?_⟩
    have := h4 hvis
    cases hcase : cellAt b (p.position.y + y) (p.position.x + x) with
    | none => rfl
    | some t => rw [hcase] at this; simp at this
  · intro h y hy x hx
    by_cases hocc : ((getRotatedShape p).getD y []).getD x 0 ≠ 0
    · rw [if_pos hocc]
      obtain ⟨h1, h2, h3, h4⟩ := h y x hy hx hocc
      rw [if_neg]
      intro hA
      rcases hA with hA | hA | hA | ⟨hvis, hsome⟩
      · omega
      · omega
      · omega
      · rw [h4 hvis] at hsome
        simp at hsome
    · rw [if_neg hocc]

/-- C1: `isValidMove` holds iff every occupied cell of the current rotated
shape is inside the side walls (`0 ≤ boardX < W`), above the floor
(`boardY < H`), and, when its row is visible (`boardY ≥ 0`), lands on an
empty board cell; cells with `boardY < 0` are exempt from the occupancy
check but still bound-checked horizontally. -/
theorem isValidMove_iff (p : Tetromino) (b : Board) :
    isValidMove p b = true ↔
      ∀ y x : ℕ, y < (getRotatedShape p).length →
        x < ((getRotatedShape p).getD y []).length →
        ((getRotatedShape p).getD y []).getD x 0 ≠ 0 →
        0 ≤ p.position.x + x ∧ p.position.x + x < (BOARD_WIDTH : ℤ) ∧
          p.position.y + y < (BOARD_HEIGHT : ℤ) ∧
          (0 ≤ p.position.y + y →
            cellAt b (p.position.y + y) (p.position.x + x) = none) :=
  isValidMove_char p b

/-- Witness for C1: the O piece at spawn is a valid move on the empty
board, and the characterization yields the emptiness of the board cell
under its bottom-left occupied cell. -/
theorem isValidMove_iff_witness : cellAt createEmptyBoard 1 4 = none :=
  ((isValidMove_iff (generateNewPiece TetrominoType.O) createEmptyBoard).mp
    (by decide) 1 0 (by decide) (by decide) (by decide)).2.2.2 (by decide)

/-! ### Line clearing -/

theorem length_filter_add_length_filter_not {α : Type} (l : List α)
    (p : α → Bool) :
    (l.filter p).length + (l.filter (fun a => !p a)).length = l.length := by
  induction l with
  | nil => rfl
  | cons a t ih =>
    by_cases h : p a = true <;> simp [List.filter_cons, h] <;> omega

theorem clearLines_foldl (rows : List Row) (kept : List Row) (k : ℕ) :
    rows.foldl (fun acc row =>
        if isRowFull row then (emptyRow :: acc.1, acc.2 + 1)
        else (acc.1 ++ [row], acc.2))
      (List.replicate k emptyRow ++ kept, k) =
      (List.replicate (k + (rows.filter (fun r => isRowFull r)).length) emptyRow
          ++ (kept ++ rows.filter fun r => !(isRowFull r)),
        k + (rows.filter (fun r => isRowFull r)).length) := by
  induction rows generalizing kept k with
  | nil => simp
  | cons r rows ih =>
    rw [List.foldl_cons]
    by_cases h : isRowFull r = true
    · have hstep :
          (if isRowFull r then
              (emptyRow :: (List.replicate k emptyRow ++ kept), k + 1)
            else ((List.replicate k emptyRow ++ kept) ++ [r], k)) =
            (List.replicate (k + 1) emptyRow ++ kept, k + 1) := by
        rw [if_pos h, List.replicate_succ]
        rfl
      rw [hstep, ih kept (k + 1), List.filter_cons, List.filter_cons, h]
      have harith :
          k + 1 + (List.filter (fun r => isRowFull r) rows).length =
            k + ((List.filter (fun r => isRowFull r) rows).length + 1) := by
        omega
      simp [harith]
    · rw [Bool.not_eq_true] at h
      have hstep :
          (if isRowFull r then
              (emptyRow :: (List.replicate k emptyRow ++ kept), k + 1)
            else ((List.replicate k emptyRow ++ kept) ++ [r], k)) =
            (List.replicate k emptyRow ++ (kept ++ [r]), k) := by
        rw [h]
        simp [List.append_assoc]
      rw [hstep, ih (kept ++ [r]) k, List.filter_cons, List.filter_cons, h]
      simp [List.append_assoc]

/-- C2: `clearLines` removes exactly the full rows, keeps the remaining
rows in order below `linesCleared` fresh empty rows, reports the number of
full rows, and returns a board of exactly `BOARD_HEIGHT` rows whenever the
input has `BOARD_HEIGHT` rows. -/
theorem clearLines_spec (b : Board) (hb : b.length = BOARD_HEIGHT) :
    (clearLines b).1 =
        List.replicate (clearLines b).2 emptyRow
          ++ b.filter (fun r => !(isRowFull r)) ∧
      (clearLines b).2 = (b.filter (fun r => isRowFull r)).length ∧
      (clearLines b).1.length = BOARD_HEIGHT := by
  have h0 := clearLines_foldl b [] 0
  simp only [List.replicate_zero, List.nil_append, Nat.zero_add] at h0
  have hcl : clearLines b =
      (List.replicate (b.filter (fun r => isRowFull r)).length emptyRow
          ++ b.filter (fun r => !(isRowFull r)),
        (b.filter (fun r => isRowFull r)).length) := by
    unfold clearLines
    exact h0
  rw [hcl]
  refine ⟨rfl, rfl, ?_⟩
  simp only [List.length_append, List.length_replicate]
  rw [← hb]
  exact length_filter_add_length_filter_not b fun r => isRowFull r

/-- Witness for C2 on a 20-row board whose bottom row is full. -/
theorem clearLines_spec_witness :
    (clearLines (List.replicate 19 emptyRow
        ++ [List.replicate BOARD_WIDTH (some TetrominoType.I)])).2 =
      ((List.replicate 19 emptyRow
        ++ [List.replicate BOARD_WIDTH (some TetrominoType.I)]).filter
          (fun r => isRowFull r)).length :=
  (clearLines_spec _ (by decide)).2.1

/-! ### Rotation with wall kicks -/

theorem tryKicks_all_invalid (rotated : Tetromino) (b : Board)
    (orig : Tetromino) (kicks : List Kick)
    (h : ∀ k ∈ kicks, isValidMove (applyKick rotated k) b = false) :
    tryKicks rotated b orig kicks = orig := by
  induction kicks with
  | nil => rfl
  | cons k rest ih =>
    unfold tryKicks
    rw [h k (List.mem_cons_self k rest)]
    simp only [Bool.false_eq_true, if_false]
    exact ih fun k' hk' => h k' (List.mem_cons_of_mem k hk')

theorem tryKicks_first (rotated : Tetromino) (b : Board) (orig : Tetromino)
    (l : List Kick) (k : Kick) (r : List Kick)
    (hl : ∀ k' ∈ l, isValidMove (applyKick rotated k') b = false)
    (hk : isValidMove (applyKick rotated k) b = true) :
    tryKicks rotated b orig (l ++ k :: r) = applyKick rotated k := by
  induction l with
  | nil =>
    unfold tryKicks
    rw [List.nil_append] at *
    simp only [hk, if_true]
  | cons k' l ih =>
    rw [List.cons_append]
    unfold tryKicks
    rw [hl k' (List.mem_cons_self k' l)]
    simp only [Bool.false_eq_true, if_false]
    exact ih fun x hx => hl x (List.mem_cons_of_mem k' hx)

/-- C3: the rotation attempt builds the piece at rotation
`(current+1) % 4`, walks the wall-kick table for the current rotation in
order, commits the first kicked placement that is a valid move, and leaves
the piece unchanged when every candidate offset fails. -/
theorem rotatePiece_spec (p : Tetromino) (b : Board) :
    ((∀ k ∈ getWallKicks p p.rotation,
        isValidMove
          (applyKick { p with rotation := (p.rotation + 1) % 4 } k) b
          = false) →
      rotatePiece p b = p) ∧
    ∀ l k r, getWallKicks p p.rotation = l ++ k :: r →
      (∀ k' ∈ l,
        isValidMove
          (applyKick { p with rotation := (p.rotation + 1) % 4 } k') b
          = false) →
      isValidMove (applyKick { p with rotation := (p.rotation + 1) % 4 } k) b
        = true →
      rotatePiece p b =
        applyKick { p with rotation := (p.rotation + 1) % 4 } k := by
  constructor
  · intro h
    unfold rotatePiece
    exact tryKicks_all_invalid _ _ _ _ h
  · intro l k r hsplit hl hk
    unfold rotatePiece
    rw [hsplit]
    exact tryKicks_first _ _ _ _ _ _ hl hk

/-- Witness for C3: rotating the freshly spawned T piece on the empty
board commits the very first (zero) kick of the 0→1 table. -/
theorem rotatePiece_spec_witness :
    rotatePiece (generateNewPiece TetrominoType.T) createEmptyBoard =
      applyKick
        { generateNewPiece TetrominoType.T with rotation := (0 + 1) % 4 }
        ⟨0, 0⟩ :=
  (rotatePiece_spec (generateNewPiece TetrominoType.T) createEmptyBoard).2
    [] ⟨0, 0⟩ [⟨-1, 0⟩, ⟨-1, -1⟩, ⟨0, 2⟩, ⟨-1, 2⟩] (by decide)
    (by intro k' hk'; simp at hk') (by decide)

/-! ### Bag shuffle -/

theorem getElem_cons_set_perm {α : Type} :
    ∀ (t : List α) (m : ℕ) (h : m < t.length) (a : α),
      List.Perm (t[m] :: t.set m a) (a :: t) := by
  intro t
  induction t with
  | nil => intro m h a; simp at h
  | cons b s ih =>
    intro m h a
    match m with
    | 0 =>
      simp only [List.getElem_cons_zero, List.set_cons_zero]
      exact List.Perm.swap a b s
    | m + 1 =>
      simp only [List.getElem_cons_succ, List.set_cons_succ]
      have h' : m < s.length := by simpa using h
      have step1 : List.Perm (s[m] :: b :: s.set m a) (b :: s[m] :: s.set m a) :=
        List.Perm.swap b s[m] _
      have step2 : List.Perm (b :: s[m] :: s.set m a) (b :: (a :: s)) :=
        (ih m h' a).cons b
      have step3 : List.Perm (b :: a :: s) (a :: b :: s) :=
        List.Perm.swap a b s
      exact (step1.trans step2).trans step3

theorem set_set_perm {α : Type} :
    ∀ (l : List α) (i j : ℕ) (hi : i < l.length) (hj : j < l.length),
      List.Perm ((l.set i l[j]).set j l[i]) l := by
  intro l
  induction l with
  | nil => intro i j hi hj; simp at hi
  | cons a t ih =>
    intro i j hi hj
    match i, j with
    | 0, 0 => simp
    | 0, j + 1 =>
      have hj' : j < t.length := by simpa using hj
      simp only [List.getElem_cons_succ, List.getElem_cons_zero,
        List.set_cons_zero, List.set_cons_succ]
      exact getElem_cons_set_perm t j hj' a
    | i + 1, 0 =>
      have hi' : i < t.length := by simpa using hi
      simp only [List.getElem_cons_succ, List.getElem_cons_zero,
        List.set_cons_succ, List.set_cons_zero]
      exact getElem_cons_set_perm t i hi' a
    | i + 1, j + 1 =>
      have hi' : i < t.length := by simpa using hi
      have hj' : j < t.length := by simpa using hj
      simp only [List.getElem_cons_succ, List.set_cons_succ]
      exact (ih i j hi' hj').cons a

theorem bagSwap_perm (bag : List TetrominoType) (i j : ℕ)
    (hi : i < bag.length) (hj : j < bag.length) :
    List.Perm (bagSwap bag i j) bag := by
  unfold bagSwap
  rw [List.getD_eq_getElem _ _ hj, List.getD_eq_getElem _ _ hi]
  exact set_set_perm bag i j hi hj

/-- C6: for any random draws with `rand i ≤ i` (as
`Math.floor(Math.random() * (i+1))` always is), `generateBag` returns a
length-7 permutation of the full kind set in which each kind appears
exactly once — so seven consecutive draws from a bag boundary contain
each kind exactly once. -/
theorem generateBag_spec (rand : ℕ → ℕ) (h : ∀ i, rand i ≤ i) :
    (generateBag rand).length = 7 ∧
      List.Perm (generateBag rand) TETROMINO_TYPES ∧
      ∀ t, (generateBag rand).count t = 1 := by
  have l0 : TETROMINO_TYPES.length = 7 := rfl
  have perm1 : (bagSwap TETROMINO_TYPES 6 (rand 6)).Perm TETROMINO_TYPES :=
    bagSwap_perm _ _ _ (by omega) (by rw [l0]; have := h 6; omega)
  have len1 := perm1.length_eq.trans l0
  have perm2 := (bagSwap_perm (bagSwap TETROMINO_TYPES 6 (rand 6)) 5 (rand 5)
    (by omega) (by rw [len1]; have := h 5; omega)).trans perm1
  have len2 := perm2.length_eq.trans l0
  have perm3 := (bagSwap_perm _ 4 (rand 4)
    (by omega) (by rw [len2]; have := h 4; omega)).trans perm2
  have len3 := perm3.length_eq.trans l0
  have perm4 := (bagSwap_perm _ 3 (rand 3)
    (by omega) (by rw [len3]; have := h 3; omega)).trans perm3
  have len4 := perm4.length_eq.trans l0
  have perm5 := (bagSwap_perm _ 2 (rand 2)
    (by omega) (by rw [len4]; have := h 2; omega)).trans perm4
  have len5 := perm5.length_eq.trans l0
  have perm6 := (bagSwap_perm _ 1 (rand 1)
    (by omega) (by rw [len5]; have := h 1; omega)).trans perm5
  have hbag : (generateBag rand).Perm TETROMINO_TYPES := by
    unfold generateBag
    simp only [List.foldl_cons, List.foldl_nil]
    exact perm6
  refine ⟨hbag.length_eq.trans l0, hbag, fun t => ?_⟩
  rw [hbag.count_eq]
  cases t <;> decide

/-- Witness for C6 with the identity draw sequence. -/
theorem generateBag_spec_witness :
    (generateBag (fun i => i)).count TetrominoType.I = 1 :=
  (generateBag_spec (fun i => i) (fun i => Nat.le_refl i)).2.2 TetrominoType.I

/-! ### Descent: ghost piece and termination -/

/-- Whether a shape matrix has at least one occupied (nonzero) cell. -/
def hasOccupiedCell (m : List (List ℕ)) : Bool :=
  (List.range m.length).any fun i =>
    (List.range (m.getD i []).length).any fun j => (m.getD i []).getD j 0 != 0

theorem hasOccupiedCell_iff (m : List (List ℕ)) :
    hasOccupiedCell m = true ↔
      ∃ i j, i < m.length ∧ j < (m.getD i []).length ∧
        (m.getD i []).getD j 0 ≠ 0 := by
  unfold hasOccupiedCell
  simp only [List.any_eq_true, List.mem_range, bne_iff_ne]
  constructor
  · rintro ⟨i, hi, j, hj, hocc⟩
    exact ⟨i, j, hi, hj, hocc⟩
  · rintro ⟨i, j, hi, hj, hocc⟩
    exact ⟨i, hi, j, hj, hocc⟩

theorem hasOccupiedCell_rotateMatrix (m : List (List ℕ)) (hsq : IsSquare m)
    (hocc : hasOccupiedCell m = true) :
    hasOccupiedCell (rotateMatrix m) = true := by
  rw [hasOccupiedCell_iff] at hocc ⊢
  obtain ⟨i, j, hi, hj, hne⟩ := hocc
  have hrowlen : (m.getD i []).length = m.length := by
    rw [List.getD_eq_getElem _ _ hi]
    exact hsq _ (List.getElem_mem hi)
  have hjN : j < m.length := by rwa [hrowlen] at hj
  refine ⟨j, m.length - 1 - i, ?_, ?_, ?_⟩
  · rw [length_rotateMatrix]; exact hjN
  · rw [row_length_rotateMatrix m j hjN]; omega
  · have := entry_rotateMatrix m j (m.length - 1 - i) hjN (by omega)
    unfold entry at this
    rw [this]
    have hsimp : m.length - 1 - (m.length - 1 - i) = i := by omega
    rwa [hsimp]

theorem isSquare_rotateIter (n : ℕ) (m : List (List ℕ)) (hsq : IsSquare m) :
    IsSquare (rotateIter n m) := by
  induction n generalizing m with
  | zero => exact hsq
  | succ n ih => exact ih (rotateMatrix m) (isSquare_rotateMatrix m)

theorem hasOccupiedCell_rotateIter (n : ℕ) (m : List (List ℕ))
    (hsq : IsSquare m) (hocc : hasOccupiedCell m = true) :
    hasOccupiedCell (rotateIter n m) = true := by
  induction n generalizing m with
  | zero => exact hocc
  | succ n ih =>
    exact ih (rotateMatrix m) (isSquare_rotateMatrix m)
      (hasOccupiedCell_rotateMatrix m hsq hocc)

theorem TETROMINO_SHAPES_square (t : TetrominoType) :
    IsSquare (TETROMINO_SHAPES t) := by
  cases t <;> (intro row hrow; fin_cases hrow <;> rfl)

theorem TETROMINO_SHAPES_occ (t : TetrominoType) :
    hasOccupiedCell (TETROMINO_SHAPES t) = true := by
  cases t <;> decide

/-- Every piece whose stored shape is its kind's base shape (as every
piece the program builds is) has an occupied cell in every rotation. -/
theorem shape_hasOcc (p : Tetromino)
    (hshape : p.shape = TETROMINO_SHAPES p.type) :
    hasOccupiedCell (getRotatedShape p) = true := by
  unfold getRotatedShape
  rw [hshape]
  exact hasOccupiedCell_rotateIter p.rotation _
    (TETROMINO_SHAPES_square p.type) (TETROMINO_SHAPES_occ p.type)

theorem isValidMove_false_of_low (p : Tetromino) (b : Board)
    (hocc : hasOccupiedCell (getRotatedShape p) = true)
    (hy : (BOARD_HEIGHT : ℤ) ≤ p.position.y) : isValidMove p b = false := by
  by_contra h
  rw [Bool.not_eq_false] at h
  rw [hasOccupiedCell_iff] at hocc
  obtain ⟨i, j, hi, hj, hne⟩ := hocc
  have := ((isValidMove_char p b).mp h i j hi hj hne).2.2.1
  omega

theorem descend_zero (p : Tetromino) (b : Board) : descend 0 p b = p := rfl

theorem descend_succ (fuel : ℕ) (p : Tetromino) (b : Board) :
    descend (fuel + 1) p b =
      if isValidMove (down p) b = true then descend fuel (down p) b else p :=
  rfl

theorem descend_of_guard_false (p : Tetromino) (b : Board)
    (h : isValidMove (down p) b = false) :
    ∀ m, descend m p b = p := by
  intro m
  cases m with
  | zero => rfl
  | succ m =>
    rw [descend_succ, h]
    simp

theorem descend_add (b : Board) :
    ∀ (n m : ℕ) (p : Tetromino),
      descend (n + m) p b = descend m (descend n p b) b := by
  intro n
  induction n with
  | zero => intro m p; simp [descend]
  | succ n ih =>
    intro m p
    have hshift : n + 1 + m = (n + m) + 1 := by omega
    rw [hshift]
    by_cases hg : isValidMove (down p) b = true
    · have l1 : descend ((n + m) + 1) p b = descend (n + m) (down p) b := by
        rw [descend_succ, hg]
        simp
      have l2 : descend (n + 1) p b = descend n (down p) b := by
        rw [descend_succ, hg]
        simp
      rw [l1, ih m (down p), l2]
    · rw [Bool.not_eq_true] at hg
      have l1 : descend ((n + m) + 1) p b = p := by
        rw [descend_succ, hg]
        simp
      have l2 : descend (n + 1) p b = p := by
        rw [descend_succ, hg]
        simp
      rw [l1, l2, descend_of_guard_false p b hg m]

theorem descend_guard_false (b : Board) :
    ∀ (fuel : ℕ) (p : Tetromino),
      hasOccupiedCell (getRotatedShape p) = true →
      (BOARD_HEIGHT : ℤ) ≤ p.position.y + fuel →
      isValidMove (down (descend fuel p b)) b = false := by
  intro fuel
  induction fuel with
  | zero =>
    intro p hocc hb
    apply isValidMove_false_of_low (down p) b hocc
    simp only [down]
    simp at hb
    omega
  | succ n ih =>
    intro p hocc hb
    rw [descend_succ]
    by_cases hg : isValidMove (down p) b = true
    · rw [hg]
      simp only [if_true]
      apply ih (down p) hocc
      simp only [down]
      push_cast at hb ⊢
      omega
    · rw [Bool.not_eq_true] at hg
      rw [hg]
      simpa using hg

theorem descend_reaches (b : Board) :
    ∀ (fuel : ℕ) (p : Tetromino),
      ∃ d : ℕ, d ≤ fuel ∧ descend fuel p b = setY p (p.position.y + d) ∧
        ∀ k : ℕ, 1 ≤ k → k ≤ d →
          isValidMove (setY p (p.position.y + k)) b = true := by
  intro fuel
  induction fuel with
  | zero =>
    intro p
    refine ⟨0, Nat.le_refl 0, ?_, by omega⟩
    cases p with
    | mk t s pos r => cases pos; simp [descend, setY]
  | succ n ih =>
    intro p
    by_cases hg : isValidMove (down p) b = true
    · obtain ⟨d, hd, heq, hchain⟩ := ih (down p)
      refine ⟨d + 1, by omega, ?_, ?_⟩
      · have l2 : descend (n + 1) p b = descend n (down p) b := by
          rw [descend_succ, hg]
          simp
        rw [l2, heq]
        have : (down p).position.y + (d : ℤ) = p.position.y + (d + 1 : ℕ) := by
          simp only [down]
          push_cast
          omega
        rw [this]
        rfl
      · intro k hk1 hkd
        by_cases hk : k = 1
        · subst hk
          have : setY p (p.position.y + (1 : ℕ)) = down p := by
            cases p with
            | mk t s pos r => cases pos; simp [setY, down]
          rw [this]
          exact hg
        · have hk2 : 2 ≤ k := by omega
          have := hchain (k - 1) (by omega) (by omega)
          have harg : (down p).position.y + ((k - 1 : ℕ) : ℤ) =
              p.position.y + (k : ℕ) := by
            simp only [down]
            push_cast [Nat.cast_sub (by omega : 1 ≤ k)]
            omega
          rw [harg] at this
          exact this
    · rw [Bool.not_eq_true] at hg
      refine ⟨0, by omega, ?_, by omega⟩
      rw [descend_of_guard_false p b hg (n + 1)]
      cases p with
      | mk t s pos r => cases pos; simp [setY]

/-- C7: for any piece of the data model (stored shape = its kind's base
shape) that is a valid placement, the ghost position keeps kind, shape,
rotation and x, and its y is the largest one reachable from the piece by
unit downward steps through valid placements: every intermediate step is
valid and one further row down is not. -/
theorem getGhostPiecePosition_spec (p : Tetromino) (b : Board)
    (hshape : p.shape = TETROMINO_SHAPES p.type)
    (hvalid : isValidMove p b = true) :
    ∃ d : ℕ,
      getGhostPiecePosition p b = setY p (p.position.y + d) ∧
      (∀ k : ℕ, k ≤ d →
        isValidMove (setY p (p.position.y + k)) b = true) ∧
      isValidMove (setY p (p.position.y + d + 1)) b = false := by
  have hocc := shape_hasOcc p hshape
  obtain ⟨d, hd, heq, hchain⟩ := descend_reaches b (descendFuel p) p
  refine ⟨d, heq, ?_, ?_⟩
  · intro k hk
    by_cases hk0 : k = 0
    · subst hk0
      have : setY p (p.position.y + (0 : ℕ)) = p := by
        cases p with
        | mk t s pos r => cases pos; simp [setY]
      rwa [this]
    · exact hchain k (by omega) hk
  · have hguard := descend_guard_false b (descendFuel p) p hocc (by
      unfold descendFuel
      omega)
    rw [heq] at hguard
    have : down (setY p (p.position.y + d)) =
        setY p (p.position.y + d + 1) := by
      cases p with
      | mk t s pos r => cases pos; simp [down, setY]
    rwa [this] at hguard

/-- Witness for C7: the spawned O piece is valid on the empty board, and
the reachability clause at step 0 returns that validity. -/
theorem getGhostPiecePosition_spec_witness :
    isValidMove (setY (generateNewPiece TetrominoType.O)
      ((generateNewPiece TetrominoType.O).position.y + (0 : ℕ)))
      createEmptyBoard = true := by
  obtain ⟨d, heq, hchain, hinv⟩ := getGhostPiecePosition_spec
    (generateNewPiece TetrominoType.O) createEmptyBoard rfl (by decide)
  exact hchain 0 (Nat.zero_le d)

/-- C9: when the rotated shape has an occupied cell, every position at or
below the floor is an invalid move, so the shared descent loop stops —
`descend` is stable at the fuel `descendFuel`, matching the source's
unbounded loop; when the shape has no occupied cell, `isValidMove` is
vacuously true at every y, which is exactly why the source loops would
never exit. -/
theorem descent_termination (p : Tetromino) (b : Board) :
    (hasOccupiedCell (getRotatedShape p) = true →
      (∀ y : ℤ, (BOARD_HEIGHT : ℤ) ≤ y →
        isValidMove (setY p y) b = false) ∧
      ∀ extra : ℕ,
        descend (descendFuel p + extra) p b = descend (descendFuel p) p b) ∧
    (hasOccupiedCell (getRotatedShape p) = false →
      ∀ y : ℤ, isValidMove (setY p y) b = true) := by
  constructor
  · intro hocc
    constructor
    · intro y hy
      exact isValidMove_false_of_low (setY p y) b hocc hy
    · intro extra
      rw [descend_add b (descendFuel p) extra p]
      exact descend_of_guard_false _ b
        (descend_guard_false b (descendFuel p) p hocc
          (by unfold descendFuel; omega)) extra
  · intro hocc y
    rw [isValidMove_char]
    intro i j hi hj hne
    exfalso
    have : hasOccupiedCell (getRotatedShape (setY p y)) = true :=
      (hasOccupiedCell_iff _).mpr ⟨i, j, hi, hj, hne⟩
    have hsame : getRotatedShape (setY p y) = getRotatedShape p := rfl
    rw [hsame] at this
    rw [this] at hocc
    exact absurd hocc (by simp)

/-- Witness for C9: the spawned T piece (occupied shape) is invalid at
y = 25 on the empty board; a piece with the all-zero 1×1 shape is
"valid" at y = 100. -/
theorem descent_termination_witness :
    isValidMove (setY (generateNewPiece TetrominoType.T) 25)
        createEmptyBoard = false ∧
      isValidMove
        (setY ⟨TetrominoType.T, [[0]], ⟨0, 0⟩, 0⟩ 100) createEmptyBoard
        = true :=
  ⟨((descent_termination (generateNewPiece TetrominoType.T)
      createEmptyBoard).1 (by decide)).1 25 (by decide),
    (descent_termination ⟨TetrominoType.T, [[0]], ⟨0, 0⟩, 0⟩
      createEmptyBoard).2 (by decide) 100⟩

/-! ### Merging a piece into the board -/

/-- Well-formed H×W board, phrased through the `getD` accessor. -/
def WF (b : Board) : Prop :=
  b.length = BOARD_HEIGHT ∧
    ∀ i : ℕ, (b.getD i []).length = if i < BOARD_HEIGHT then BOARD_WIDTH else 0

theorem getD_of_length_le {α : Type} (l : List α) (i : ℕ) (d : α)
    (h : l.length ≤ i) : l.getD i d = d := by
  simp [List.getD_eq_getElem?_getD, List.getElem?_eq_none (by simpa using h)]

theorem WF_iff (b : Board) :
    WF b ↔ b.length = BOARD_HEIGHT ∧ ∀ row ∈ b, row.length = BOARD_WIDTH := by
  constructor
  · rintro ⟨hlen, hrows⟩
    refine ⟨hlen, fun row hrow => ?_⟩
    obtain ⟨i, hi, rfl⟩ := List.getElem_of_mem hrow
    have := hrows i
    rw [List.getD_eq_getElem _ _ hi, if_pos (by omega)] at this
    exact this
  · rintro ⟨hlen, hrows⟩
    refine ⟨hlen, fun i => ?_⟩
    by_cases hi : i < BOARD_HEIGHT
    · rw [if_pos hi, List.getD_eq_getElem _ _ (by omega)]
      exact hrows _ (List.getElem_mem (by omega))
    · rw [if_neg hi, getD_of_length_le _ _ _ (by omega)]
      rfl

theorem WF_setCell (b : Board) (y x : ℤ) (t : TetrominoType) (hwf : WF b) :
    WF (setCell b y x t) := by
  obtain ⟨hlen, hrows⟩ := hwf
  unfold setCell
  split
  · refine ⟨by rw [List.length_set]; exact hlen, fun i => ?_⟩
    by_cases hy : y.toNat < b.length
    · by_cases hiy : i = y.toNat
      · subst hiy
        rw [List.getD_eq_getElem _ _ (by rw [List.length_set]; exact hy),
          List.getElem_set_self, List.length_set]
        exact hrows y.toNat
      · by_cases hi : i < b.length
        · rw [List.getD_eq_getElem _ _ (by rw [List.length_set]; exact hi),
            List.getElem_set_ne (by omega) _,
            ← List.getD_eq_getElem _ _ hi]
          exact hrows i
        · rw [getD_of_length_le _ _ _ (by rw [List.length_set]; omega),
            if_neg (by omega)]
          rfl
    · rw [List.set_eq_of_length_le (by omega)]
      exact hrows i
  · exact ⟨hlen, hrows⟩

theorem cellAt_of_nonneg (b : Board) (r c : ℤ) (hr0 : 0 ≤ r) (hc0 : 0 ≤ c) :
    cellAt b r c = (b.getD r.toNat []).getD c.toNat none := by
  unfold cellAt
  rw [if_pos ⟨hr0, hc0⟩]

theorem cellAt_setCell (b : Board) (y x : ℤ) (t : TetrominoType) (r c : ℤ)
    (hwf : WF b) (hr0 : 0 ≤ r) (hrH : r < (BOARD_HEIGHT : ℤ))
    (hc0 : 0 ≤ c) (hcW : c < (BOARD_WIDTH : ℤ)) :
    cellAt (setCell b y x t) r c =
      if y = r ∧ x = c then some t else cellAt b r c := by
  obtain ⟨hlen, hrows⟩ := hwf
  rw [cellAt_of_nonneg _ _ _ hr0 hc0, cellAt_of_nonneg _ _ _ hr0 hc0]
  unfold setCell
  by_cases hyx : 0 ≤ y ∧ 0 ≤ x
  · rw [if_pos hyx]
    by_cases hyH : y.toNat < b.length
    · by_cases hyr : y = r
      · obtain rfl := hyr
        have hboard :
            (List.set b y.toNat
                ((b.getD y.toNat []).set x.toNat (some t))).getD y.toNat [] =
              (b.getD y.toNat []).set x.toNat (some t) := by
          rw [List.getD_eq_getElem _ _ (by rw [List.length_set]; exact hyH)]
          exact List.getElem_set_self ..
        rw [hboard]
        have hrowlen : (b.getD y.toNat []).length = BOARD_WIDTH := by
          have := hrows y.toNat
          rw [if_pos (by omega)] at this
          exact this
        by_cases hxc : x = c
        · obtain rfl := hxc
          have hrow :
              ((b.getD y.toNat []).set x.toNat (some t)).getD x.toNat none =
                some t := by
            rw [List.getD_eq_getElem _ _
              (by rw [List.length_set, hrowlen]; omega)]
            exact List.getElem_set_self ..
          rw [hrow, if_pos ⟨rfl, rfl⟩]
        · have hxc' : x.toNat ≠ c.toNat := by omega
          rw [if_neg (fun h => hxc h.2)]
          by_cases hxW' : x.toNat < (b.getD y.toNat []).length
          · rw [List.getD_eq_getElem _ _
              (by rw [List.length_set, hrowlen]; omega),
              List.getElem_set_ne hxc' _,
              ← List.getD_eq_getElem _ _ (by rw [hrowlen]; omega)]
          · rw [List.set_eq_of_length_le (by omega)]
      · have hyr' : y.toNat ≠ r.toNat := by omega
        have hrH' : r.toNat < b.length := by omega
        have hboard :
            (List.set b y.toNat
                ((b.getD y.toNat []).set x.toNat (some t))).getD r.toNat [] =
              b.getD r.toNat [] := by
          rw [List.getD_eq_getElem _ _ (by rw [List.length_set]; exact hrH'),
            List.getElem_set_ne hyr' _, ← List.getD_eq_getElem _ _ hrH']
        rw [hboard, if_neg (fun h => hyr h.1)]
    · rw [List.set_eq_of_length_le (by omega)]
      rw [if_neg (by intro h; obtain ⟨h1, h2⟩ := h; omega)]
  · rw [if_neg hyx]
    rw [if_neg (by intro h; obtain ⟨h1, h2⟩ := h; omega)]

theorem addPiece_inner (t : TetrominoType) (py px : ℤ) (row : List ℕ)
    (yy : ℕ) :
    ∀ (xs : List ℕ) (nb : Board), WF nb →
      WF (xs.foldl (fun nb2 x =>
        if row.getD x 0 ≠ 0 then
          if 0 ≤ py + (yy : ℤ) ∧ py + (yy : ℤ) < (BOARD_HEIGHT : ℤ) then
            setCell nb2 (py + (yy : ℤ)) (px + (x : ℤ)) t
          else nb2
        else nb2) nb) ∧
      ∀ r c : ℤ, 0 ≤ r → r < (BOARD_HEIGHT : ℤ) → 0 ≤ c →
        c < (BOARD_WIDTH : ℤ) →
        cellAt (xs.foldl (fun nb2 x =>
          if row.getD x 0 ≠ 0 then
            if 0 ≤ py + (yy : ℤ) ∧ py + (yy : ℤ) < (BOARD_HEIGHT : ℤ) then
              setCell nb2 (py + (yy : ℤ)) (px + (x : ℤ)) t
            else nb2
          else nb2) nb) r c =
          if ∃ x ∈ xs, row.getD x 0 ≠ 0 ∧ py + (yy : ℤ) = r ∧ px + (x : ℤ) = c
          then some t else cellAt nb r c := by
  intro xs
  induction xs with
  | nil =>
    intro nb hwf
    refine ⟨hwf, fun r c hr0 hrH hc0 hcW => ?_⟩
    rw [List.foldl_nil, if_neg (by simp)]
  | cons x xs ih =>
    intro nb hwf
    rw [List.foldl_cons]
    have hwf1 : WF (if row.getD x 0 ≠ 0 then
        if 0 ≤ py + (yy : ℤ) ∧ py + (yy : ℤ) < (BOARD_HEIGHT : ℤ) then
          setCell nb (py + (yy : ℤ)) (px + (x : ℤ)) t
        else nb
      else nb) := by
      split
      · split
        · exact WF_setCell _ _ _ _ hwf
        · exact hwf
      · exact hwf
    obtain ⟨ihwf, ihcell⟩ := ih _ hwf1
    refine ⟨ihwf, fun r c hr0 hrH hc0 hcW => ?_⟩
    rw [ihcell r c hr0 hrH hc0 hcW]
    have hcell1 : cellAt (if row.getD x 0 ≠ 0 then
        if 0 ≤ py + (yy : ℤ) ∧ py + (yy : ℤ) < (BOARD_HEIGHT : ℤ) then
          setCell nb (py + (yy : ℤ)) (px + (x : ℤ)) t
        else nb
      else nb) r c =
        if row.getD x 0 ≠ 0 ∧ py + (yy : ℤ) = r ∧ px + (x : ℤ) = c
        then some t else cellAt nb r c := by
      by_cases hocc : row.getD x 0 ≠ 0
      · rw [if_pos hocc]
        by_cases hguard : 0 ≤ py + (yy : ℤ) ∧ py + (yy : ℤ) < (BOARD_HEIGHT : ℤ)
        · rw [if_pos hguard,
            cellAt_setCell nb _ _ t r c hwf hr0 hrH hc0 hcW]
          by_cases heq : py + (yy : ℤ) = r ∧ px + (x : ℤ) = c
          · rw [if_pos heq, if_pos ⟨hocc, heq.1, heq.2⟩]
          · rw [if_neg heq, if_neg (by tauto)]
        · rw [if_neg hguard, if_neg (by
            intro h
            obtain ⟨h1, h2, h3⟩ := h
            omega)]
      · rw [if_neg hocc, if_neg (by tauto)]
    by_cases hxs : ∃ x' ∈ xs,
        row.getD x' 0 ≠ 0 ∧ py + (yy : ℤ) = r ∧ px + (x' : ℤ) = c
    · rw [if_pos hxs]
      obtain ⟨x', hx', hC⟩ := hxs
      rw [if_pos ⟨x', List.mem_cons_of_mem x hx', hC⟩]
    · rw [if_neg hxs, hcell1]
      by_cases hx : row.getD x 0 ≠ 0 ∧ py + (yy : ℤ) = r ∧ px + (x : ℤ) = c
      · rw [if_pos hx, if_pos ⟨x, List.mem_cons_self x xs, hx⟩]
      · rw [if_neg hx, if_neg (by
          intro h
          obtain ⟨x', hmem, hC⟩ := h
          rcases List.mem_cons.mp hmem with rfl | hmem'
          · exact hx hC
          · exact hxs ⟨x', hmem', hC⟩)]

theorem addPiece_outer (t : TetrominoType) (py px : ℤ)
    (shape : List (List ℕ)) :
    ∀ (ys : List ℕ) (nb : Board), WF nb →
      WF (ys.foldl (fun nb y =>
        (List.range (shape.getD y []).length).foldl (fun nb2 x =>
          if (shape.getD y []).getD x 0 ≠ 0 then
            if 0 ≤ py + (y : ℤ) ∧ py + (y : ℤ) < (BOARD_HEIGHT : ℤ) then
              setCell nb2 (py + (y : ℤ)) (px + (x : ℤ)) t
            else nb2
          else nb2) nb) nb) ∧
      ∀ r c : ℤ, 0 ≤ r → r < (BOARD_HEIGHT : ℤ) → 0 ≤ c →
        c < (BOARD_WIDTH : ℤ) →
        cellAt (ys.foldl (fun nb y =>
          (List.range (shape.getD y []).length).foldl (fun nb2 x =>
            if (shape.getD y []).getD x 0 ≠ 0 then
              if 0 ≤ py + (y : ℤ) ∧ py + (y : ℤ) < (BOARD_HEIGHT : ℤ) then
                setCell nb2 (py + (y : ℤ)) (px + (x : ℤ)) t
              else nb2
            else nb2) nb) nb) r c =
          if ∃ y ∈ ys, ∃ x ∈ List.range (shape.getD y []).length,
              (shape.getD y []).getD x 0 ≠ 0 ∧ py + (y : ℤ) = r ∧
                px + (x : ℤ) = c
          then some t else cellAt nb r c := by
  intro ys
  induction ys with
  | nil =>
    intro nb hwf
    refine ⟨hwf, fun r c hr0 hrH hc0 hcW => ?_⟩
    rw [List.foldl_nil, if_neg (by simp)]
  | cons y ys ih =>
    intro nb hwf
    rw [List.foldl_cons]
    obtain ⟨hwf1, hcell1⟩ :=
      addPiece_inner t py px (shape.getD y []) y
        (List.range (shape.getD y []).length) nb hwf
    obtain ⟨ihwf, ihcell⟩ := ih _ hwf1
    refine ⟨ihwf, fun r c hr0 hrH hc0 hcW => ?_⟩
    rw [ihcell r c hr0 hrH hc0 hcW, hcell1 r c hr0 hrH hc0 hcW]
    by_cases hys : ∃ y' ∈ ys, ∃ x ∈ List.range (shape.getD y' []).length,
        (shape.getD y' []).getD x 0 ≠ 0 ∧ py + (y' : ℤ) = r ∧
          px + (x : ℤ) = c
    · rw [if_pos hys]
      obtain ⟨y', hy', hC⟩ := hys
      rw [if_pos ⟨y', List.mem_cons_of_mem y hy', hC⟩]
    · rw [if_neg hys]
      by_cases hy : ∃ x ∈ List.range (shape.getD y []).length,
          (shape.getD y []).getD x 0 ≠ 0 ∧ py + (y : ℤ) = r ∧
            px + (x : ℤ) = c
      · rw [if_pos hy, if_pos ⟨y, List.mem_cons_self y ys, hy⟩]
      · rw [if_neg hy, if_neg (by
          intro h
          obtain ⟨y', hmem, hC⟩ := h
          rcases List.mem_cons.mp hmem with rfl | hmem'
          · exact hy hC
          · exact hys ⟨y', hmem', hC⟩)]

/-- C8: on a well-formed H×W board, merging a piece keeps the dimensions,
writes the piece's kind exactly at the in-grid cells hit by an occupied
cell of the rotated shape (the source clips rows to `0 ≤ boardY < H`;
cells with `boardY ≥ 0` that exist in the board are exactly these), and
leaves every other cell equal to the input board's cell — the input board
itself is never mutated, all writes going to a copy. -/
theorem addPieceToBoard_spec (b : Board) (p : Tetromino)
    (hlen : b.length = BOARD_HEIGHT)
    (hrows : ∀ row ∈ b, row.length = BOARD_WIDTH) :
    (addPieceToBoard b p).length = BOARD_HEIGHT ∧
      (∀ row ∈ addPieceToBoard b p, row.length = BOARD_WIDTH) ∧
      ∀ r c : ℤ, 0 ≤ r → r < (BOARD_HEIGHT : ℤ) → 0 ≤ c →
        c < (BOARD_WIDTH : ℤ) →
        ((∃ sy sx : ℕ, sy < (getRotatedShape p).length ∧
            sx < ((getRotatedShape p).getD sy []).length ∧
            ((getRotatedShape p).getD sy []).getD sx 0 ≠ 0 ∧
            p.position.y + (sy : ℤ) = r ∧ p.position.x + (sx : ℤ) = c) →
          cellAt (addPieceToBoard b p) r c = some p.type) ∧
        ((¬ ∃ sy sx : ℕ, sy < (getRotatedShape p).length ∧
            sx < ((getRotatedShape p).getD sy []).length ∧
            ((getRotatedShape p).getD sy []).getD sx 0 ≠ 0 ∧
            p.position.y + (sy : ℤ) = r ∧ p.position.x + (sx : ℤ) = c) →
          cellAt (addPieceToBoard b p) r c = cellAt b r c) := by
  have hwf : WF b := (WF_iff b).mpr ⟨hlen, hrows⟩
  have hunf : addPieceToBoard b p =
      (List.range (getRotatedShape p).length).foldl (fun nb y =>
        (List.range ((getRotatedShape p).getD y []).length).foldl
          (fun nb2 x =>
            if ((getRotatedShape p).getD y []).getD x 0 ≠ 0 then
              if 0 ≤ p.position.y + (y : ℤ) ∧
                  p.position.y + (y : ℤ) < (BOARD_HEIGHT : ℤ) then
                setCell nb2 (p.position.y + (y : ℤ))
                  (p.position.x + (x : ℤ)) p.type
              else nb2
            else nb2) nb) b := rfl
  obtain ⟨hwfres, hcell⟩ :=
    addPiece_outer p.type p.position.y p.position.x (getRotatedShape p)
      (List.range (getRotatedShape p).length) b hwf
  rw [← hunf] at hwfres hcell
  obtain ⟨hreslen, hresrows⟩ := (WF_iff _).mp hwfres
  refine ⟨hreslen, hresrows, fun r c hr0 hrH hc0 hcW => ?_⟩
  have hmemiff :
      (∃ y ∈ List.range (getRotatedShape p).length,
          ∃ x ∈ List.range ((getRotatedShape p).getD y []).length,
            ((getRotatedShape p).getD y []).getD x 0 ≠ 0 ∧
              p.position.y + (y : ℤ) = r ∧ p.position.x + (x : ℤ) = c) ↔
        ∃ sy sx : ℕ, sy < (getRotatedShape p).length ∧
          sx < ((getRotatedShape p).getD sy []).length ∧
          ((getRotatedShape p).getD sy []).getD sx 0 ≠ 0 ∧
          p.position.y + (sy : ℤ) = r ∧ p.position.x + (sx : ℤ) = c := by
    constructor
    · rintro ⟨y, hy, x, hx, hC⟩
      exact ⟨y, x, List.mem_range.mp hy, List.mem_range.mp hx, hC⟩
    · rintro ⟨sy, sx, hy, hx, hC⟩
      exact ⟨sy, List.mem_range.mpr hy, sx, List.mem_range.mpr hx, hC⟩
  constructor
  · intro hex
    rw [hcell r c hr0 hrH hc0 hcW, if_pos (hmemiff.mpr hex)]
  · intro hnex
    rw [hcell r c hr0 hrH hc0 hcW,
      if_neg (fun h => hnex (hmemiff.mp h))]

/-- Witness for C8 on the empty board with the spawned O piece: the cell
under an occupied shape cell receives the piece's kind, a far-away cell
keeps its input value. -/
theorem addPieceToBoard_spec_witness :
    cellAt (addPieceToBoard createEmptyBoard (generateNewPiece
        TetrominoType.O)) 0 4 = some TetrominoType.O ∧
      cellAt (addPieceToBoard createEmptyBoard (generateNewPiece
        TetrominoType.O)) 10 4 = cellAt createEmptyBoard 10 4 :=
  ⟨((addPieceToBoard_spec createEmptyBoard (generateNewPiece TetrominoType.O)
      (by decide) (by decide)).2.2 0 4 (by decide) (by decide) (by decide)
      (by decide)).1 ⟨0, 0, by decide, by decide, by decide, by decide,
        by decide⟩,
    ((addPieceToBoard_spec createEmptyBoard (generateNewPiece TetrominoType.O)
      (by decide) (by decide)).2.2 10 4 (by decide) (by decide) (by decide)
      (by decide)).2 (by
        rintro ⟨sy, sx, hy, hx, hocc, hr, hc⟩
        have hlen2 :
            (getRotatedShape (generateNewPiece TetrominoType.O)).length = 2 :=
          rfl
        have hpy : (generateNewPiece TetrominoType.O).position.y = 0 := rfl
        rw [hlen2] at hy
        rw [hpy] at hr
        omega)⟩

/-! ### Placement search -/

theorem placementStep_of_trial_none (t : TetrominoType) (b : Board)
    (acc : Option Placement) (rot : ℕ) (x : ℤ)
    (h : placementTrial t b rot x = none) :
    placementStep t b acc rot x = acc := by
  unfold placementStep
  rw [h]

theorem placementStep_of_trial_some_none (t : TetrominoType) (b : Board)
    (rot : ℕ) (x : ℤ) (q : Placement)
    (h : placementTrial t b rot x = some q) :
    placementStep t b none rot x = some q := by
  unfold placementStep
  rw [h]

theorem placementStep_of_trial_some_some (t : TetrominoType) (b : Board)
    (rot : ℕ) (x : ℤ) (q bp : Placement)
    (h : placementTrial t b rot x = some q) :
    placementStep t b (some bp) rot x =
      if q.score < bp.score then some q else some bp := by
  unfold placementStep
  rw [h]

theorem placementStep_none (t : TetrominoType) (b : Board)
    (acc : Option Placement) (rot : ℕ) (x : ℤ) :
    placementStep t b acc rot x = none ↔
      acc = none ∧ placementTrial t b rot x = none := by
  cases htrial : placementTrial t b rot x with
  | none =>
    rw [placementStep_of_trial_none t b acc rot x htrial]
    simp
  | some q =>
    cases acc with
    | none =>
      rw [placementStep_of_trial_some_none t b rot x q htrial]
      simp
    | some bp =>
      rw [placementStep_of_trial_some_some t b rot x q bp htrial]
      split <;> simp

theorem placementStep_some (t : TetrominoType) (b : Board)
    (acc : Option Placement) (rot : ℕ) (x : ℤ) (pl : Placement)
    (h : placementStep t b acc rot x = some pl) :
    (acc = some pl ∨ placementTrial t b rot x = some pl) ∧
      (∀ bp, acc = some bp → pl.score ≤ bp.score) ∧
      (∀ q, placementTrial t b rot x = some q → pl.score ≤ q.score) := by
  cases htrial : placementTrial t b rot x with
  | none =>
    rw [placementStep_of_trial_none t b acc rot x htrial] at h
    refine ⟨Or.inl h, fun bp hbp => ?_, fun q hq => ?_⟩
    · rw [h] at hbp
      injection hbp with e
      rw [e]
    · cases hq
  | some q =>
    cases acc with
    | none =>
      rw [placementStep_of_trial_some_none t b rot x q htrial] at h
      injection h with e
      subst e
      refine ⟨Or.inr rfl, fun bp hbp => ?_, fun q' hq' => ?_⟩
      · cases hbp
      · injection hq' with e'
        rw [e']
    | some bp =>
      rw [placementStep_of_trial_some_some t b rot x q bp htrial] at h
      by_cases hlt : q.score < bp.score
      · rw [if_pos hlt] at h
        injection h with e
        subst e
        refine ⟨Or.inr rfl, fun bp' hbp' => ?_, fun q' hq' => ?_⟩
        · injection hbp' with e'
          subst e'
          exact le_of_lt hlt
        · injection hq' with e'
          rw [e']
      · rw [if_neg hlt] at h
        injection h with e
        subst e
        refine ⟨Or.inl rfl, fun bp' hbp' => ?_, fun q' hq' => ?_⟩
        · injection hbp' with e'
          rw [e']
        · injection hq' with e'
          rw [← e']
          exact le_of_not_lt hlt

theorem placement_inner (t : TetrominoType) (b : Board) (rot : ℕ) :
    ∀ (xs : List ℤ) (acc : Option Placement),
      (xs.foldl (fun best x => placementStep t b best rot x) acc = none ↔
        acc = none ∧ ∀ x ∈ xs, placementTrial t b rot x = none) ∧
      ∀ pl,
        xs.foldl (fun best x => placementStep t b best rot x) acc = some pl →
        (acc = some pl ∨ ∃ x ∈ xs, placementTrial t b rot x = some pl) ∧
          (∀ bp, acc = some bp → pl.score ≤ bp.score) ∧
          (∀ x ∈ xs, ∀ q, placementTrial t b rot x = some q →
            pl.score ≤ q.score) := by
  intro xs
  induction xs with
  | nil =>
    intro acc
    refine ⟨by simp, fun pl h => ?_⟩
    rw [List.foldl_nil] at h
    refine ⟨Or.inl h, fun bp hbp => ?_, fun x hx => by simp at hx⟩
    rw [h] at hbp
    injection hbp with e
    rw [e]
  | cons x xs ih =>
    intro acc
    rw [List.foldl_cons]
    obtain ⟨ihnone, ihsome⟩ := ih (placementStep t b acc rot x)
    constructor
    · rw [ihnone, placementStep_none]
      constructor
      · rintro ⟨⟨haccn, htrialn⟩, hxs⟩
        refine ⟨haccn, fun x' hx' => ?_⟩
        rcases List.mem_cons.mp hx' with rfl | h'
        · exact htrialn
        · exact hxs x' h'
      · rintro ⟨haccn, hall⟩
        exact ⟨⟨haccn, hall x (List.mem_cons_self x xs)⟩,
          fun x' h' => hall x' (List.mem_cons_of_mem x h')⟩
    · intro pl hres
      obtain ⟨hprov, hacc_min, hxs_min⟩ := ihsome pl hres
      refine ⟨?_, ?_, ?_⟩
      · rcases hprov with hstep | ⟨x', hx', ht'⟩
        · rcases (placementStep_some t b acc rot x pl hstep).1 with hacc | htr
          · exact Or.inl hacc
          · exact Or.inr ⟨x, List.mem_cons_self x xs, htr⟩
        · exact Or.inr ⟨x', List.mem_cons_of_mem x hx', ht'⟩
      · intro bp hbp
        cases hstep : placementStep t b acc rot x with
        | none =>
          rw [((placementStep_none t b acc rot x).mp hstep).1] at hbp
          cases hbp
        | some bp' =>
          exact le_trans (hacc_min bp' hstep)
            ((placementStep_some t b acc rot x bp' hstep).2.1 bp hbp)
      · intro x' hx' q hq
        rcases List.mem_cons.mp hx' with rfl | h'
        · cases hstep : placementStep t b acc rot x' with
          | none =>
            rw [((placementStep_none t b acc rot x').mp hstep).2] at hq
            cases hq
          | some bp' =>
            exact le_trans (hacc_min bp' hstep)
              ((placementStep_some t b acc rot x' bp' hstep).2.2 q hq)
        · exact hxs_min x' h' q hq

theorem placement_nested (t : TetrominoType) (b : Board) :
    ∀ (rots : List ℕ) (acc : Option Placement),
      (rots.foldl (fun best rot =>
          xRange.foldl (fun best x => placementStep t b best rot x) best) acc
            = none ↔
        acc = none ∧ ∀ rot ∈ rots, ∀ x ∈ xRange,
          placementTrial t b rot x = none) ∧
      ∀ pl,
        rots.foldl (fun best rot =>
          xRange.foldl (fun best x => placementStep t b best rot x) best) acc
            = some pl →
        (acc = some pl ∨ ∃ rot ∈ rots, ∃ x ∈ xRange,
            placementTrial t b rot x = some pl) ∧
          (∀ bp, acc = some bp → pl.score ≤ bp.score) ∧
          (∀ rot ∈ rots, ∀ x ∈ xRange, ∀ q,
            placementTrial t b rot x = some q → pl.score ≤ q.score) := by
  intro rots
  induction rots with
  | nil =>
    intro acc
    refine ⟨by simp, fun pl h => ?_⟩
    rw [List.foldl_nil] at h
    refine ⟨Or.inl h, fun bp hbp => ?_, fun rot hrot => by simp at hrot⟩
    rw [h] at hbp
    injection hbp with e
    rw [e]
  | cons rot rots ih =>
    intro acc
    rw [List.foldl_cons]
    obtain ⟨stepnone, stepsome⟩ := placement_inner t b rot xRange acc
    obtain ⟨ihnone, ihsome⟩ :=
      ih (xRange.foldl (fun best x => placementStep t b best rot x) acc)
    constructor
    · rw [ihnone, stepnone]
      constructor
      · rintro ⟨⟨haccn, hx⟩, hrots⟩
        refine ⟨haccn, fun rot' hrot' => ?_⟩
        rcases List.mem_cons.mp hrot' with rfl | h'
        · exact hx
        · exact hrots rot' h'
      · rintro ⟨haccn, hall⟩
        exact ⟨⟨haccn, hall rot (List.mem_cons_self rot rots)⟩,
          fun rot' h' => hall rot' (List.mem_cons_of_mem rot h')⟩
    · intro pl hres
      obtain ⟨hprov, hacc_min, hrots_min⟩ := ihsome pl hres
      refine ⟨?_, ?_, ?_⟩
      · rcases hprov with hstep | ⟨rot', hrot', hx'⟩
        · rcases (stepsome pl hstep).1 with hacc | ⟨x', hx', ht'⟩
          · exact Or.inl hacc
          · exact Or.inr ⟨rot, List.mem_cons_self rot rots, x', hx', ht'⟩
        · exact Or.inr ⟨rot', List.mem_cons_of_mem rot hrot', hx'⟩
      · intro bp hbp
        cases hstep : xRange.foldl
            (fun best x => placementStep t b best rot x) acc with
        | none =>
          rw [(stepnone.mp hstep).1] at hbp
          cases hbp
        | some bp' =>
          exact le_trans (hacc_min bp' hstep) ((stepsome bp' hstep).2.1 bp hbp)
      · intro rot' hrot' x' hx' q hq
        rcases List.mem_cons.mp hrot' with rfl | h'
        · cases hstep : xRange.foldl
              (fun best x => placementStep t b best rot' x) acc with
          | none =>
            rw [(stepnone.mp hstep).2 x' hx'] at hq
            cases hq
          | some bp' =>
            exact le_trans (hacc_min bp' hstep)
              ((stepsome bp' hstep).2.2 x' hx' q hq)
        · exact hrots_min rot' h' x' hx' q hq

theorem mem_xRange (x : ℤ) :
    x ∈ xRange ↔ -3 ≤ x ∧ x < (BOARD_WIDTH : ℤ) + 3 := by
  have hW : BOARD_WIDTH = 10 := rfl
  unfold xRange
  rw [List.mem_map]
  constructor
  · rintro ⟨n, hn, rfl⟩
    rw [List.mem_range, hW] at hn
    rw [hW]
    omega
  · rintro ⟨h1, h2⟩
    rw [hW] at h2
    refine ⟨(x + 3).toNat, ?_, ?_⟩
    · rw [List.mem_range, hW]
      omega
    · omega

theorem placementTrial_fields (t : TetrominoType) (b : Board) (rot : ℕ)
    (x : ℤ) (pl : Placement) (h : placementTrial t b rot x = some pl) :
    pl.rotation = rot ∧ pl.x = x := by
  unfold placementTrial at h
  by_cases hv : isValidMove (descend DROP_FUEL (trialPiece t x rot) b) b = true
  · rw [if_pos hv] at h
    injection h with e
    rw [← e]
    exact ⟨rfl, rfl⟩
  · rw [if_neg hv] at h
    cases h

/-- C4: the composite-score `findBestPlacement` returns `none` exactly
when no rotation in 0–3 and no anchor in the padded range [-3, W+3)
yields a valid placement; otherwise it returns a placement produced by
one of those trials whose composite score (`scoreBoardState`, weights
10, 1/2, 3/10 on holes/height/bumpiness and -5 on lines cleared) is
minimal over all trials — ties broken by keeping the earlier trial. -/
theorem findBestPlacement_spec (t : TetrominoType) (b : Board) :
    (0 < HOLE_WEIGHT ∧ 0 < HEIGHT_WEIGHT ∧ 0 < BUMPINESS_WEIGHT ∧
      LINES_WEIGHT < 0) ∧
    (findBestPlacement t b = none ↔
      ∀ rot : ℕ, rot < 4 → ∀ x : ℤ, -3 ≤ x → x < (BOARD_WIDTH : ℤ) + 3 →
        placementTrial t b rot x = none) ∧
    ∀ pl, findBestPlacement t b = some pl →
      pl.rotation < 4 ∧ -3 ≤ pl.x ∧ pl.x < (BOARD_WIDTH : ℤ) + 3 ∧
      placementTrial t b pl.rotation pl.x = some pl ∧
      ∀ rot : ℕ, rot < 4 → ∀ x : ℤ, -3 ≤ x → x < (BOARD_WIDTH : ℤ) + 3 →
        ∀ q, placementTrial t b rot x = some q → pl.score ≤ q.score := by
  obtain ⟨hnone, hsome⟩ := placement_nested t b (List.range 4) none
  refine ⟨⟨by norm_num [HOLE_WEIGHT], by norm_num [HEIGHT_WEIGHT],
    by norm_num [BUMPINESS_WEIGHT], by norm_num [LINES_WEIGHT]⟩, ?_, ?_⟩
  · unfold findBestPlacement
    rw [hnone]
    constructor
    · rintro ⟨-, hall⟩ rot hrot x hx1 hx2
      exact hall rot (List.mem_range.mpr hrot) x ((mem_xRange x).mpr ⟨hx1, hx2⟩)
    · intro hall
      exact ⟨rfl, fun rot hrot x hx =>
        hall rot (List.mem_range.mp hrot) x ((mem_xRange x).mp hx).1
          ((mem_xRange x).mp hx).2⟩
  · intro pl hpl
    have hpl' : (List.range 4).foldl (fun best rot =>
        xRange.foldl (fun best x => placementStep t b best rot x) best) none
          = some pl := hpl
    obtain ⟨hprov, -, hmin⟩ := hsome pl hpl'
    rcases hprov with hacc | ⟨rot, hrot, x, hx, htrial⟩
    · cases hacc
    · obtain ⟨hfrot, hfx⟩ := placementTrial_fields t b rot x pl htrial
      obtain ⟨hx1, hx2⟩ := (mem_xRange x).mp hx
      refine ⟨by rw [hfrot]; exact List.mem_range.mp hrot,
        by rw [hfx]; exact hx1, by rw [hfx]; exact hx2,
        by rw [hfrot, hfx]; exact htrial,
        fun rot' hrot' x' hx1' hx2' q hq => ?_⟩
      exact hmin rot' (List.mem_range.mpr hrot') x'
        ((mem_xRange x').mpr ⟨hx1', hx2'⟩) q hq

/-- Witness for C4: on a completely full board no trial of the I piece is
a valid placement, so the search reports `none`, and the characterization
turns that into the nullity of the (0, 0) trial. -/
theorem findBestPlacement_spec_witness :
    placementTrial TetrominoType.I
      (List.replicate 20 (List.replicate 10 (some TetrominoType.I))) 0 0
      = none :=
  (findBestPlacement_spec TetrominoType.I
    (List.replicate 20 (List.replicate 10 (some TetrominoType.I)))).2.1.mp
    (by decide) 0 (by decide) 0 (by decide) (by decide)

/-! ### Heuristic piece selector -/

/-- C10: the heuristic selector is total — for every tiebreak oracle and
every board it returns one of the seven kinds — and when
`findBestPlacement` returns `null` for all seven kinds (no kind has any
valid placement) it still returns the hardcoded default kind `"I"` rather
than signalling failure. -/
theorem selectOptimalPiece_spec (tb : ℕ → ℤ → Bool) (b : Board) :
    selectOptimalPiece tb b ∈ TETROMINO_TYPES ∧
      ((∀ t, findBestPlacementHoles tb t b = none) →
        selectOptimalPiece tb b = TetrominoType.I) := by
  constructor
  · have hall : ∀ t : TetrominoType, t ∈ TETROMINO_TYPES := by
      intro t
      cases t <;> simp [TETROMINO_TYPES]
    exact hall _
  · intro h
    unfold selectOptimalPiece
    simp only [TETROMINO_TYPES, List.foldl_cons, List.foldl_nil, h]

/-- Witness for C10: on a completely full board every kind's best
placement is `null`, and the selector returns the default `"I"`. -/
theorem selectOptimalPiece_spec_witness :
    selectOptimalPiece (fun _ _ => true)
        (List.replicate 20 (List.replicate 10 (some TetrominoType.I)))
      = TetrominoType.I :=
  (selectOptimalPiece_spec (fun _ _ => true)
    (List.replicate 20 (List.replicate 10 (some TetrominoType.I)))).2
    (by intro t; cases t <;> decide)

end OpenTetris
